import Mathlib

/-!
Shallow embedding of the text-to-notes summarization pipeline of
`src/src/App.jsx` (helpers `cleanText`, `sentenceSplit`, `tokenize`,
`STOPWORDS`, `topTerms`, `chunkOutline`, `keyTakeaways`, `guessTitle`,
`toMarkdown`), together with proofs of the specification claims.

Modelling conventions:
* JavaScript strings are modelled as `String` / `List Char`; `s.length`
  becomes the character count (the sources only exercise it on BMP text).
* The JavaScript regex class `\s` (and `String.prototype.trim`) is the
  fixed whitespace set `isJsWs`.
* Global regex replacement of character runs (`[\t ]+`, `\s+`, `\n{3,}`)
  is a left-to-right scan replacing each maximal run.
* `String.prototype.split` keeps empty fragments at separator boundaries,
  exactly like the JavaScript functions do.
* `Array.prototype.sort` (ECMAScript 2019+) is a stable sort; it is
  modelled by `List.insertionSort` with the non-strict descending
  comparator, which is the unique stable realisation of the comparator
  `(a, b) => b.score - a.score`.
* `toLowerCase`/`toUpperCase` use ASCII case mapping; the tokenizer
  discards every non-ASCII letter right after lowercasing, so the two
  case conventions agree on all characters the pipeline keeps.
-/

namespace NotionNotes

/-- The JavaScript `\s` class (also used by `String.prototype.trim`). -/
def isJsWs (c : Char) : Bool :=
  let n := c.toNat
  n == 0x20 || n == 0x09 || n == 0x0A || n == 0x0B || n == 0x0C || n == 0x0D ||
  n == 0xA0 || n == 0x1680 || (0x2000 ≤ n && n ≤ 0x200A) || n == 0x2028 ||
  n == 0x2029 || n == 0x202F || n == 0x205F || n == 0x3000 || n == 0xFEFF

/-- The character class `[\t ]` of `cleanText`'s second replacement. -/
def isTS (c : Char) : Bool := c == '\t' || c == ' '

/-- The non-breaking space replaced by `cleanText`. -/
def nbsp : Char := Char.ofNat 0xA0

/-- `.replace(/ /g, " ")`. -/
def replaceNbsp (l : List Char) : List Char :=
  l.map fun c => if c == nbsp then ' ' else c

/-- One global replacement of each maximal run of `p`-characters by a single
    space: `.replace(/[\t ]+/g, " ")` (with `p := isTS`) and
    `.replace(/\s+/g, " ")` (with `p := isJsWs`).  The flag records whether
    the scan is inside a run whose space was already emitted. -/
def collapseRunsBy (p : Char → Bool) : Bool → List Char → List Char
  | _, [] => []
  | inRun, c :: cs =>
    if p c then
      if inRun then collapseRunsBy p true cs
      else ' ' :: collapseRunsBy p true cs
    else c :: collapseRunsBy p false cs

/-- What a pending run of `k` newlines contributes after
    `.replace(/\n{3,}/g, "\n\n")`. -/
def emitNL (k : Nat) : List Char :=
  if 3 ≤ k then ['\n', '\n'] else List.replicate k '\n'

/-- `.replace(/\n{3,}/g, "\n\n")`: the counter is the number of newlines of
    the run currently being scanned. -/
def collapseNL : Nat → List Char → List Char
  | k, [] => emitNL k
  | k, c :: cs =>
    if c == '\n' then collapseNL (k + 1) cs
    else emitNL k ++ c :: collapseNL 0 cs

/-- `String.prototype.trim`. -/
def trimJs (l : List Char) : List Char :=
  ((l.dropWhile isJsWs).reverse.dropWhile isJsWs).reverse

/-- `cleanText` of App.jsx, on character lists. -/
def cleanTextL (l : List Char) : List Char :=
  trimJs (collapseNL 0 (collapseRunsBy isTS false (replaceNbsp l)))

/-- `cleanText` of App.jsx (the spec's `normalize`). -/
def cleanText (s : String) : String := (cleanTextL s.data).asString

/-- JavaScript `String.prototype.split` on a regex matching runs of
    `p`-characters (`/\s+/` or `/\n+/`): separators are maximal nonempty
    runs, and empty fragments at the borders are kept.  `prevSep` records
    whether the previous character belonged to a separator run. -/
def splitRunsAux (p : Char → Bool) : Bool → List Char → List Char → List (List Char)
  | _, acc, [] => [acc.reverse]
  | prevSep, acc, c :: cs =>
    if p c then
      if prevSep then splitRunsAux p true acc cs
      else acc.reverse :: splitRunsAux p true [] cs
    else splitRunsAux p false (c :: acc) cs

/-- The character class kept by `tokenize`'s scrub
    `.replace(/[^a-z0-9\s-]/gi, " ")` (the `i` flag also keeps `A-Z`). -/
def isWordKeep (c : Char) : Bool :=
  ('a' ≤ c && c ≤ 'z') || ('A' ≤ c && c ≤ 'Z') || ('0' ≤ c && c ≤ '9') ||
  isJsWs c || c == '-'

/-- `.replace(/[^a-z0-9\s-]/gi, " ")`. -/
def scrubNonWord (l : List Char) : List Char :=
  l.map fun c => if isWordKeep c then c else ' '

/-- The `STOPWORDS` set of App.jsx: the literal word string split on
    whitespace runs, exactly as the source builds it. -/
def STOPWORDS : List String :=
  (splitRunsAux isJsWs false []
    ("the a an and or of to in is are was were be been for with on at by from as that this these those into over under about after before between within without using use used than more most very much many can could should would may might not no yes if then when where how what who which also etc data info page slide figure table section chapter article").data).map
    List.asString

/-- `tokenize` of App.jsx. -/
def tokenize (t : String) : List String :=
  ((splitRunsAux isJsWs false []
      (scrubNonWord ((cleanTextL t.data).map Char.toLower))).map List.asString).filter
    fun w => decide (2 < w.length) && !(STOPWORDS.contains w)

/-- One `freq.set(w, (freq.get(w) || 0) + 1)` step on the insertion-ordered
    entry list of the JavaScript `Map`. -/
def bump (w : String) : List (String × Nat) → List (String × Nat)
  | [] => [(w, 1)]
  | (x, n) :: rest => if x == w then (x, n + 1) :: rest else (x, n) :: bump w rest

/-- `[...freq.entries()]` after the counting loop of `topTerms`:
    entries in first-occurrence order with their occurrence counts. -/
def freqList (t : String) : List (String × Nat) :=
  (tokenize t).foldl (fun acc w => bump w acc) []

/-- The stable descending sort by a numeric key modelling
    `.sort((a, b) => b[1] - a[1])` / `.sort((a, b) => b.score - a.score)`. -/
def sortDescBy {α : Type} (key : α → Nat) (l : List α) : List α :=
  l.insertionSort fun a b => key b ≤ key a

/-- `topTerms` of App.jsx. -/
def topTerms (t : String) (k : Nat) : List String :=
  ((sortDescBy (fun p => p.2) (freqList t)).take k).map fun p => p.1

/-- The sentence-terminating punctuation of `sentenceSplit`'s lookbehind. -/
def isPunctEnd (c : Char) : Bool := c == '.' || c == '!' || c == '?'

/-- `.split(/(?<=[.!?])\s+/)`: state `1` means the previous character was
    terminal punctuation, state `2` means the scan is inside a separator
    run (whose characters are consumed), state `0` anything else.
    Whitespace not preceded by punctuation stays inside the fragment. -/
def sentSplitAux : Nat → List Char → List Char → List (List Char)
  | _, acc, [] => [acc.reverse]
  | st, acc, c :: cs =>
    if isJsWs c then
      if st == 1 then acc.reverse :: sentSplitAux 2 [] cs
      else if st == 2 then sentSplitAux 2 [] cs
      else sentSplitAux 0 (c :: acc) cs
    else sentSplitAux (if isPunctEnd c then 1 else 0) (c :: acc) cs

/-- `sentenceSplit` of App.jsx (the spec's `splitSentences`). -/
def sentenceSplit (t : String) : List String :=
  ((sentSplitAux 0 [] (collapseRunsBy isJsWs false (cleanTextL t.data))).map
    List.asString).filter fun s => decide (2 < s.length)

/-- The sentence score of `keyTakeaways`:
    `uniq.size + Math.min(8, words.length)`. -/
def scoreOf (s : String) : Nat :=
  (tokenize s).dedup.length + min 8 (tokenize s).length

/-- `keyTakeaways` of App.jsx (the spec's `selectTakeaways`);
    the source's default argument is `n = 6`. -/
def keyTakeaways (text : String) (n : Nat) : List String :=
  (sortDescBy scoreOf (sentenceSplit text)).take (min n (sentenceSplit text).length)

/-- The outline entries `{ heading, body }` of `chunkOutline`. -/
structure Chunk where
  heading : String
  body : String
deriving DecidableEq

def isUpperAscii (c : Char) : Bool := 'A' ≤ c && c ≤ 'Z'

def isDigitCh (c : Char) : Bool := '0' ≤ c && c ≤ '9'

/-- The body class `[A-Za-z0-9\s-]` of the heading regex. -/
def inHeadCls (c : Char) : Bool :=
  ('A' ≤ c && c ≤ 'Z') || ('a' ≤ c && c ≤ 'z') || ('0' ≤ c && c ≤ '9') ||
  isJsWs c || c == '-'

/-- The suffix `\s*[A-Z][A-Za-z0-9\s-]{3,}$` of the heading regex. -/
def headCore (l : List Char) : Bool :=
  match l.dropWhile isJsWs with
  | [] => false
  | c :: rest => isUpperAscii c && decide (3 ≤ rest.length) && rest.all inHeadCls

/-- The optional marker `(\d+\.|\-|\•)?` of the heading regex: returns the
    remainder after a present marker (the alternatives have disjoint first
    characters, so the match is deterministic). -/
def stripHeadMark : List Char → Option (List Char)
  | [] => none
  | c :: cs =>
    if c == '-' || c == '•' then some cs
    else if isDigitCh c then
      match (c :: cs).dropWhile isDigitCh with
      | '.' :: rest => some rest
      | _ => none
    else none

/-- The heading test of `chunkOutline`:
    `/^(\d+\.|\-|\•)?\s*[A-Z][A-Za-z0-9\s\-]{3,}$/.test(line) && line.length < 80`. -/
def isHeadingLine (l : List Char) : Bool :=
  (headCore l ||
    (match stripHeadMark l with
     | some r => headCore r
     | none => false)) && decide (l.length < 80)

/-- `Array.prototype.join(sep)`. -/
def joinSep (sep : String) : List String → String
  | [] => ""
  | [x] => x
  | x :: y :: rest => x ++ sep ++ joinSep sep (y :: rest)

/-- The `"Section"` chunk flushed from the body buffer. -/
def mkSection (buf : List (List Char)) : Chunk :=
  ⟨"Section", joinSep " " (buf.map List.asString)⟩

/-- The line loop of `chunkOutline`; `buf` holds the already trimmed
    buffered body lines. -/
def chunkLoop : List (List Char) → List (List Char) → List Chunk
  | buf, [] => if buf.isEmpty then [] else [mkSection buf]
  | buf, line :: rest =>
    if isHeadingLine line then
      (if buf.isEmpty then [] else [mkSection buf]) ++
        ⟨(trimJs line).asString, ""⟩ :: chunkLoop [] rest
    else chunkLoop (buf ++ [trimJs line]) rest

/-- `chunkOutline` of App.jsx (the spec's `buildOutline`). -/
def chunkOutline (text : String) : List Chunk :=
  chunkLoop [] (splitRunsAux (fun c => c == '\n') false [] (cleanTextL text.data))

/-- The title strip class `/^[\-•\d.\s]+/` of `guessTitle`. -/
def isTitleStrip (c : Char) : Bool :=
  c == '-' || c == '•' || isDigitCh c || c == '.' || isJsWs c

/-- `w[0].toUpperCase() + w.slice(1)` (tokenize only yields nonempty
    ASCII words, so ASCII upper-casing of the head is exact). -/
def capFirst (w : String) : String :=
  match w.data with
  | [] => ""
  | c :: rest => (c.toUpper :: rest).asString

/-- The first line of the normalized text with the `|| "Notes"` fallback:
    `cleanText(text).split(/\n+/)[0] || "Notes"`. -/
def firstLineOf (text : String) : List Char :=
  let fl0 := ((splitRunsAux (fun c => c == '\n') false [] (cleanTextL text.data)).headD [])
  if fl0.isEmpty then "Notes".data else fl0

/-- `guessTitle` of App.jsx. -/
def guessTitle (text : String) : String :=
  let fl := firstLineOf text
  if fl.length < 80 then (fl.dropWhile isTitleStrip).asString
  else
    let j := joinSep " • " ((topTerms text 5).map capFirst)
    if j == "" then "Notes" else j

/-- `c.body.slice(0, 220)`. -/
def sliceUpTo (n : Nat) (s : String) : String := (s.data.take n).asString

/-- `toMarkdown` of App.jsx; the source calls `keyTakeaways` with its
    default `n = 6` and `topTerms` with `k = 12`. -/
def toMarkdown (allText : String) : String :=
  let title := guessTitle allText
  let takeaways := keyTakeaways allText 6
  let outline := chunkOutline allText
  let terms := topTerms allText 12
  joinSep "\n"
    (["# " ++ title, "", "## Key Takeaways"] ++
     takeaways.map (fun t => "- " ++ t) ++
     ["", "## Outline"] ++
     outline.map (fun c => "- **" ++ c.heading ++ "** — " ++ sliceUpTo 220 c.body) ++
     ["", "## Terms", "> " ++ joinSep ", " terms])

/-! Auxiliary definitions used only to state and prove the claims. -/

/-- No two adjacent characters satisfy the binary test `R`. -/
def relFree (R : Char → Char → Bool) : List Char → Bool
  | a :: b :: rest => !R a b && relFree R (b :: rest)
  | _ => true

/-- Adjacent pair of `[\t ]` characters (a tab/space run of length ≥ 2). -/
def tsPair (a b : Char) : Bool := isTS a && isTS b

/-- Terminal punctuation immediately followed by whitespace: the pattern the
    sentence splitter's separator regex `(?<=[.!?])\s+` matches at. -/
def punctWsPair (a b : Char) : Bool := isPunctEnd a && isJsWs b

/-- The input contains no `.`, `!` or `?` immediately followed by
    whitespace. -/
def NoPunctThenWs (t : String) : Prop := relFree punctWsPair t.data = true

/-- No three consecutive newline characters. -/
def tripleNLFree : List Char → Bool
  | a :: b :: c :: rest =>
    !(a == '\n' && b == '\n' && c == '\n') && tripleNLFree (b :: c :: rest)
  | _ => true

/-- The sentence splitter's fully preprocessed text: the normalized input
    with every whitespace run collapsed to a single space
    (`cleanText(t).replace(/\s+/g, " ")`). -/
def collapsedText (t : String) : String :=
  (collapseRunsBy isJsWs false (cleanTextL t.data)).asString

/-- Append a key at the end unless it is already present (the insertion
    behaviour of JavaScript `Map` keys). -/
def insFirst (w : String) (ks : List String) : List String :=
  if w ∈ ks then ks else ks ++ [w]

/-- The distinct tokens of a token sequence in first-occurrence order. -/
def firstOccurs (ws : List String) : List String :=
  ws.foldl (fun acc w => insFirst w acc) []

/-- Modelled from the spec (§4.4 Term Ranker): the frequency table as the
    spec describes it — one entry per distinct token, in first-occurrence
    order, carrying its occurrence count. -/
def freqTableSpec (t : String) : List (String × Nat) :=
  (firstOccurs (tokenize t)).map fun w => (w, (tokenize t).count w)

/-- Modelled from the spec (§4.4 Term Ranker): sort the frequency table by
    count descending with the insertion-order-stable tie-break, take the
    first `k` entries, return their tokens. -/
def topTermsSpec (t : String) (k : Nat) : List String :=
  ((sortDescBy (fun p => p.2) (freqTableSpec t)).take k).map fun p => p.1

/-- Split a character list at every occurrence of the character `sep`
    (used to state which lines the assembled Markdown document consists
    of). -/
def splitEvery (sep : Char) : List Char → List (List Char)
  | [] => [[]]
  | c :: cs =>
    if c == sep then [] :: splitEvery sep cs
    else (splitEvery sep cs).modifyHead (c :: ·)

/-- The lines of a string: split at every newline character. -/
def linesOf (s : String) : List String :=
  (splitEvery '\n' s.data).map List.asString

/-! ### Structure of the outline chunks -/

theorem chunkLoop_heading_or_body :
    ∀ (lines buf : List (List Char)) (ch : Chunk), ch ∈ chunkLoop buf lines →
      ch.heading = "Section" ∨ ch.body = "" := by
  intro lines
  induction lines with
  | nil =>
    intro buf ch h
    simp only [chunkLoop] at h
    split at h
    · simp at h
    · simp only [List.mem_singleton] at h
      subst h
      exact Or.inl rfl
  | cons line rest ih =>
    intro buf ch h
    simp only [chunkLoop] at h
    split at h
    · rcases List.mem_append.mp h with h1 | h1
      · split at h1
        · simp at h1
        · simp only [List.mem_singleton] at h1
          subst h1
          exact Or.inl rfl
      · rcases List.mem_cons.mp h1 with h2 | h2
        · subst h2
          exact Or.inr rfl
        · exact ih _ _ h2
    · exact ih _ _ h

/-- **C3**: `chunkOutline` emits heading chunks (empty body) and buffered-body
    `"Section"` chunks as separate entries in document order; on the given
    six-line input it produces exactly the four chunks of the claim. -/
theorem chunkOutline_separate_heading_and_section_chunks :
    (∀ (text : String) (ch : Chunk), ch ∈ chunkOutline text →
        ch.body = "" ∨ ch.heading = "Section") ∧
      chunkOutline "Introduction\nSome body text here.\nMore body.\n\nConclusion\nFinal remarks." =
        [⟨"Introduction", ""⟩, ⟨"Section", "Some body text here. More body."⟩,
         ⟨"Conclusion", ""⟩, ⟨"Section", "Final remarks."⟩] := by
  refine ⟨fun text ch h => (chunkLoop_heading_or_body _ _ _ h).symm, by decide⟩

theorem chunkOutline_separate_witness :
    (⟨"Introduction", ""⟩ : Chunk).body = "" ∨
      (⟨"Introduction", ""⟩ : Chunk).heading = "Section" :=
  chunkOutline_separate_heading_and_section_chunks.1
    "Introduction\nSome body text here.\nMore body.\n\nConclusion\nFinal remarks."
    ⟨"Introduction", ""⟩ (by decide)

/-! ### Behaviour on the empty input -/

/-- **C2** counterexample: on the empty string, `chunkOutline` does not
    return the empty sequence — the empty single line is buffered and
    flushed as one `{heading: "Section", body: ""}` chunk. -/
theorem chunkOutline_empty_counterexample :
    chunkOutline "" = [⟨"Section", ""⟩] ∧ chunkOutline "" ≠ [] :=
  ⟨by decide, by decide⟩

/-- **C2** (amended): on the empty string every pipeline function is total;
    `keyTakeaways`, `topTerms` and `sentenceSplit` return the empty
    sequence and `guessTitle` returns `"Notes"`, but `chunkOutline` returns
    the single chunk `{heading: "Section", body: ""}` rather than the empty
    sequence. -/
theorem pipeline_on_empty_amended :
    (∀ n, keyTakeaways "" n = []) ∧ chunkOutline "" = [⟨"Section", ""⟩] ∧
      (∀ k, topTerms "" k = []) ∧ guessTitle "" = "Notes" ∧
      sentenceSplit "" = [] ∧ tokenize "" = [] := by
  refine ⟨?_, by decide, ?_, by decide, by decide, by decide⟩
  · intro n
    have h : sentenceSplit "" = [] := by decide
    simp [keyTakeaways, h, sortDescBy, List.insertionSort]
  · intro k
    have h : freqList "" = [] := by decide
    simp [topTerms, h, sortDescBy, List.insertionSort]

/-! ### Tokenizer output -/

/-- **C8**: every token produced by `tokenize` avoids the stopword set and
    has length greater than 2, and the empty string tokenizes to the empty
    sequence. -/
theorem tokenize_no_stopword_no_short :
    (∀ (t w : String), w ∈ tokenize t → w ∉ STOPWORDS ∧ ¬(w.length ≤ 2)) ∧
      tokenize "" = [] := by
  refine ⟨?_, by decide⟩
  intro t w h
  simp only [tokenize, List.mem_filter, Bool.and_eq_true, decide_eq_true_eq,
    Bool.not_eq_true'] at h
  obtain ⟨-, h2, h3⟩ := h
  refine ⟨fun hmem => ?_, by omega⟩
  have : STOPWORDS.contains w = true := List.elem_eq_true_of_mem hmem
  rw [this] at h3
  exact absurd h3 (by decide)

theorem tokenize_no_stopword_witness :
    "cats" ∉ STOPWORDS ∧ ¬("cats".length ≤ 2) :=
  tokenize_no_stopword_no_short.1 "cats dogs" "cats" (by decide)

/-! ### The stable descending sort -/

theorem sortDescBy_perm {α : Type} (key : α → Nat) (l : List α) :
    List.Perm (sortDescBy key l) l :=
  List.perm_insertionSort _ l

theorem sortDescBy_sorted {α : Type} (key : α → Nat) (l : List α) :
    List.Pairwise (fun a b => key b ≤ key a) (sortDescBy key l) := by
  haveI : IsTotal α fun a b => key b ≤ key a := ⟨fun a b => Nat.le_total (key b) (key a)⟩
  haveI : IsTrans α fun a b => key b ≤ key a := ⟨fun _ _ _ hab hbc => Nat.le_trans hbc hab⟩
  exact List.sorted_insertionSort _ l

theorem orderedInsert_stable_pairwise {α : Type} (key idx : α → Nat) (x : α) :
    ∀ l : List α,
      List.Pairwise (fun a b => key b < key a ∨ (key a = key b ∧ idx a < idx b)) l →
      (∀ y ∈ l, idx x < idx y) →
      List.Pairwise (fun a b => key b < key a ∨ (key a = key b ∧ idx a < idx b))
        (List.orderedInsert (fun a b => key b ≤ key a) x l) := by
  intro l
  induction l with
  | nil =>
    intro _ _
    simp
  | cons y ys ih =>
    intro hp hidx
    by_cases hr : key y ≤ key x
    · rw [List.orderedInsert, if_pos hr]
      refine List.Pairwise.cons ?_ hp
      intro z hz
      rcases List.mem_cons.mp hz with rfl | hz'
      · rcases Nat.lt_or_ge (key z) (key x) with h | h
        · exact Or.inl h
        · exact Or.inr ⟨Nat.le_antisymm h hr, hidx z (List.mem_cons_self _ _)⟩
      · have hyz := List.rel_of_pairwise_cons hp hz'
        have hzy : key z ≤ key y := by rcases hyz with h | ⟨h, -⟩ <;> omega
        rcases Nat.lt_or_ge (key z) (key x) with h | h
        · exact Or.inl h
        · exact Or.inr ⟨Nat.le_antisymm h (Nat.le_trans hzy hr),
            hidx z (List.mem_cons_of_mem _ hz')⟩
    · rw [List.orderedInsert, if_neg hr]
      have hx : key x < key y := Nat.not_le.mp hr
      refine List.Pairwise.cons ?_
        (ih hp.of_cons fun y' hy' => hidx y' (List.mem_cons_of_mem _ hy'))
      intro z hz
      rcases (List.mem_orderedInsert _).mp hz with rfl | hz'
      · exact Or.inl hx
      · exact List.rel_of_pairwise_cons hp hz'

theorem sortDescBy_stable {α : Type} (key idx : α → Nat) :
    ∀ l : List α, List.Pairwise (fun a b => idx a < idx b) l →
      List.Pairwise (fun a b => key b < key a ∨ (key a = key b ∧ idx a < idx b))
        (sortDescBy key l) := by
  intro l
  induction l with
  | nil =>
    intro _
    simp [sortDescBy]
  | cons x xs ih =>
    intro hp
    show List.Pairwise _ (List.orderedInsert _ x (List.insertionSort _ xs))
    exact orderedInsert_stable_pairwise key idx x _ (ih hp.of_cons)
      fun y hy => List.rel_of_pairwise_cons hp ((List.mem_insertionSort _).mp hy)

theorem enumFrom_map_snd' {α : Type} :
    ∀ (n : Nat) (l : List α), (List.enumFrom n l).map Prod.snd = l := by
  intro n l
  induction l generalizing n with
  | nil => rfl
  | cons x xs ih => simp [List.enumFrom, ih]

theorem le_fst_of_mem_enumFrom' {α : Type} :
    ∀ {p : Nat × α} {n : Nat} {l : List α}, p ∈ List.enumFrom n l → n ≤ p.1 := by
  intro p n l
  induction l generalizing n with
  | nil => intro h; simp [List.enumFrom] at h
  | cons x xs ih =>
    intro h
    rcases List.mem_cons.mp h with rfl | h'
    · exact Nat.le_refl _
    · exact Nat.le_trans (Nat.le_succ n) (ih h')

theorem pairwise_fst_lt_enumFrom' {α : Type} :
    ∀ (n : Nat) (l : List α), List.Pairwise (fun a b => a.1 < b.1) (List.enumFrom n l) := by
  intro n l
  induction l generalizing n with
  | nil => simp
  | cons x xs ih =>
    exact List.Pairwise.cons
      (fun y hy => Nat.lt_of_lt_of_le (Nat.lt_succ_self n) (le_fst_of_mem_enumFrom' hy))
      (ih (n + 1))

theorem sortDescBy_enum_map_snd {α : Type} (key : α → Nat) (l : List α) :
    (sortDescBy (fun p => key p.2) l.enum).map Prod.snd = sortDescBy key l := by
  have h := List.map_insertionSort (fun a b : Nat × α => key b.2 ≤ key a.2)
    (fun a b : α => key b ≤ key a) Prod.snd l.enum (fun _ _ _ _ => Iff.rfl)
  rw [sortDescBy, sortDescBy, h, List.enum, enumFrom_map_snd']

/-! ### The frequency table -/


theorem mem_insFirst {x w : String} {ks : List String} :
    x ∈ insFirst w ks ↔ x = w ∨ x ∈ ks := by
  by_cases h : w ∈ ks
  · simp only [insFirst, if_pos h]
    constructor
    · exact Or.inr
    · rintro (rfl | hx)
      exacts [h, hx]
  · simp only [insFirst, if_neg h]
    rw [List.mem_append, List.mem_singleton]
    tauto

theorem nodup_insFirst {w : String} {ks : List String} (h : ks.Nodup) :
    (insFirst w ks).Nodup := by
  by_cases hm : w ∈ ks
  · simpa [insFirst, hm] using h
  · simp only [insFirst, if_neg hm]
    refine List.Nodup.append h (List.nodup_singleton w) ?_
    intro a ha hb
    rw [List.mem_singleton] at hb
    subst hb
    exact hm ha

theorem fst_bump (w : String) :
    ∀ acc : List (String × Nat),
      (bump w acc).map Prod.fst = insFirst w (acc.map Prod.fst) := by
  intro acc
  induction acc with
  | nil => simp [bump, insFirst]
  | cons p rest ih =>
    obtain ⟨x, n⟩ := p
    by_cases h : x = w
    · subst h
      simp [bump, insFirst]
    · have hbeq : (x == w) = false := by simp [h]
      by_cases hm : w ∈ rest.map Prod.fst
      · simp [bump, hbeq, insFirst, ih, hm, Ne.symm h]
      · simp [bump, hbeq, insFirst, ih, hm, Ne.symm h]

theorem keys_foldl_bump :
    ∀ (ws : List String) (acc : List (String × Nat)),
      (ws.foldl (fun a w => bump w a) acc).map Prod.fst =
        ws.foldl (fun ks w => insFirst w ks) (acc.map Prod.fst) := by
  intro ws
  induction ws with
  | nil => intro acc; rfl
  | cons w ws ih =>
    intro acc
    simp only [List.foldl_cons]
    rw [ih, fst_bump]

theorem snd_bump (w : String) :
    ∀ (acc : List (String × Nat)) (f : String → Nat),
      (∀ p ∈ acc, p.2 = f p.1) → (w ∉ acc.map Prod.fst → f w = 0) →
      (acc.map Prod.fst).Nodup →
      ∀ p ∈ bump w acc, p.2 = f p.1 + (if p.1 = w then 1 else 0) := by
  intro acc
  induction acc with
  | nil =>
    intro f _ habs _ p hp
    simp only [bump, List.mem_singleton] at hp
    subst hp
    simp [habs (by simp)]
  | cons q rest ih =>
    intro f hcnt habs hnd p hp
    obtain ⟨x, n⟩ := q
    by_cases h : x = w
    · subst h
      simp only [bump, beq_self_eq_true, if_pos] at hp
      rcases List.mem_cons.mp hp with rfl | hp'
      · have hc : n = f x := hcnt (x, n) (List.mem_cons_self _ _)
        simp [hc]
      · have hx : p.1 ≠ x := by
          intro he
          have : x ∈ rest.map Prod.fst := he ▸ List.mem_map_of_mem Prod.fst hp'
          exact (List.nodup_cons.mp hnd).1 this
        simp [hx, hcnt p (List.mem_cons_of_mem _ hp')]
    · have hbeq : (x == w) = false := by simp [h]
      simp only [bump, hbeq, Bool.false_eq_true, if_false] at hp
      rcases List.mem_cons.mp hp with rfl | hp'
      · have hc : n = f x := hcnt (x, n) (List.mem_cons_self _ _)
        simp [h, hc]
      · refine ih f (fun q hq => hcnt q (List.mem_cons_of_mem _ hq)) ?_
          (List.nodup_cons.mp hnd).2 p hp'
        intro hw
        refine habs ?_
        simp only [List.map_cons, List.mem_cons]
        rintro (he | hmem)
        · exact h he.symm
        · exact hw hmem

theorem snd_foldl_bump :
    ∀ (ws : List String) (acc : List (String × Nat)) (f : String → Nat),
      (∀ p ∈ acc, p.2 = f p.1) → (∀ v, v ∉ acc.map Prod.fst → f v = 0) →
      (acc.map Prod.fst).Nodup →
      ∀ p ∈ ws.foldl (fun a w => bump w a) acc, p.2 = f p.1 + ws.count p.1 := by
  intro ws
  induction ws with
  | nil =>
    intro acc f hcnt _ _ p hp
    simpa using hcnt p hp
  | cons w ws ih =>
    intro acc f hcnt habs hnd p hp
    simp only [List.foldl_cons] at hp
    have step := ih (bump w acc) (fun v => f v + if v = w then 1 else 0)
      (by
        have h0 := snd_bump w acc f hcnt (habs w) hnd
        intro q hq
        exact h0 q hq)
      (by
        intro v hv
        rw [fst_bump] at hv
        rw [mem_insFirst] at hv
        push_neg at hv
        simp [habs v hv.2, hv.1])
      (by
        rw [fst_bump]
        exact nodup_insFirst hnd)
      p hp
    have hstep : p.2 = (f p.1 + if p.1 = w then 1 else 0) + ws.count p.1 := step
    have hcc : (w :: ws).count p.1 = ws.count p.1 + (if p.1 = w then 1 else 0) := by
      rw [List.count_cons]
      by_cases hpw : p.1 = w
      · simp [hpw]
      · simp [hpw, Ne.symm hpw]
    rw [hstep, hcc]
    omega

theorem mem_foldl_insFirst :
    ∀ (ws : List String) (acc : List String) (x : String),
      x ∈ ws.foldl (fun ks w => insFirst w ks) acc → x ∈ acc ∨ x ∈ ws := by
  intro ws
  induction ws with
  | nil =>
    intro acc x h
    exact Or.inl h
  | cons w ws ih =>
    intro acc x h
    simp only [List.foldl_cons] at h
    rcases ih _ x h with h' | h'
    · rw [mem_insFirst] at h'
      rcases h' with rfl | h''
      · exact Or.inr (List.mem_cons_self _ _)
      · exact Or.inl h''
    · exact Or.inr (List.mem_cons_of_mem _ h')

theorem nodup_foldl_insFirst :
    ∀ (ws : List String) (acc : List String), acc.Nodup →
      (ws.foldl (fun ks w => insFirst w ks) acc).Nodup := by
  intro ws
  induction ws with
  | nil => intro acc h; exact h
  | cons w ws ih =>
    intro acc h
    simp only [List.foldl_cons]
    exact ih _ (nodup_insFirst h)

theorem freqList_keys (t : String) :
    (freqList t).map Prod.fst = firstOccurs (tokenize t) := by
  rw [freqList, keys_foldl_bump, firstOccurs]
  rfl

theorem freqList_counts (t : String) :
    ∀ p ∈ freqList t, p.2 = (tokenize t).count p.1 := by
  intro p hp
  have h := snd_foldl_bump (tokenize t) [] (fun _ => 0)
    (by simp) (fun _ _ => rfl) List.nodup_nil p hp
  simpa using h

theorem freqList_nodup_keys (t : String) : ((freqList t).map Prod.fst).Nodup := by
  rw [freqList_keys, firstOccurs]
  exact nodup_foldl_insFirst _ _ List.nodup_nil

theorem eq_of_keys_and_counts (g : String → Nat) :
    ∀ (l₁ l₂ : List (String × Nat)), l₁.map Prod.fst = l₂.map Prod.fst →
      (∀ p ∈ l₁, p.2 = g p.1) → (∀ p ∈ l₂, p.2 = g p.1) → l₁ = l₂ := by
  intro l₁
  induction l₁ with
  | nil =>
    intro l₂ hk _ _
    cases l₂ with
    | nil => rfl
    | cons q l₂ => simp at hk
  | cons p l₁ ih =>
    intro l₂ hk h₁ h₂
    cases l₂ with
    | nil => simp at hk
    | cons q l₂ =>
      simp only [List.map_cons, List.cons.injEq] at hk
      have hfst : p.1 = q.1 := hk.1
      have hsnd : p.2 = q.2 := by
        rw [h₁ p (List.mem_cons_self _ _), h₂ q (List.mem_cons_self _ _), hfst]
      rw [Prod.ext hfst hsnd,
        ih l₂ hk.2 (fun x hx => h₁ x (List.mem_cons_of_mem _ hx))
          (fun x hx => h₂ x (List.mem_cons_of_mem _ hx))]

theorem freqList_eq_spec (t : String) : freqList t = freqTableSpec t := by
  refine eq_of_keys_and_counts (fun w => (tokenize t).count w)
    (freqList t) (freqTableSpec t) ?_ (freqList_counts t) ?_
  · rw [freqList_keys, freqTableSpec, List.map_map]
    have hid : (Prod.fst ∘ fun w => (w, (tokenize t).count w)) = fun w : String => w := rfl
    rw [hid]
    exact (List.map_id' _).symm
  · intro p hp
    rw [freqTableSpec] at hp
    rcases List.mem_map.mp hp with ⟨w, _, rfl⟩
    rfl

theorem mem_tokenize_of_mem_topTerms {t : String} {k : Nat} {w : String}
    (h : w ∈ topTerms t k) : w ∈ tokenize t := by
  rcases List.mem_map.mp h with ⟨p, hp, rfl⟩
  have hp' : p ∈ freqList t :=
    (sortDescBy_perm (fun p : String × Nat => p.2) (freqList t)).mem_iff.mp
      ((List.take_sublist _ _).subset hp)
  have hkey : p.1 ∈ (freqList t).map Prod.fst := List.mem_map_of_mem Prod.fst hp'
  rw [freqList_keys, firstOccurs] at hkey
  rcases mem_foldl_insFirst _ _ _ hkey with h' | h'
  · simp at h'
  · exact h'

/-! ### Claims about the term ranker -/

/-- **C5**: `topTerms` returns the first `k` entries of the token-frequency
    table (one entry per distinct token, in first-occurrence order, with its
    occurrence count) sorted stably by count descending, keeping the token
    values only; the counts along the output are non-increasing, the sort of
    the position-indexed table is ordered by count descending with the
    first-occurrence position breaking ties, and
    `topTerms "cat cat cat dog dog bird" 2 = ["cat", "dog"]`. -/
theorem topTerms_is_ranked_freq_table :
    (∀ t k, topTerms t k = topTermsSpec t k) ∧
      (∀ t k, List.Pairwise
        (fun v w => (tokenize t).count w ≤ (tokenize t).count v) (topTerms t k)) ∧
      (∀ t, List.Pairwise
        (fun a b => b.2.2 < a.2.2 ∨ (a.2.2 = b.2.2 ∧ a.1 < b.1))
        (sortDescBy (fun p => p.2.2) (freqList t).enum)) ∧
      topTerms "cat cat cat dog dog bird" 2 = ["cat", "dog"] := by
  refine ⟨fun t k => by rw [topTerms, topTermsSpec, freqList_eq_spec], ?_, ?_, by decide⟩
  · intro t k
    rw [topTerms]
    rw [List.pairwise_map]
    refine List.Pairwise.imp_of_mem ?_
      ((sortDescBy_sorted (fun p : String × Nat => p.2) (freqList t)).sublist
        (List.take_sublist _ _))
    intro a b ha hb hab
    have ha' : a ∈ freqList t :=
      (sortDescBy_perm _ _).mem_iff.mp ((List.take_sublist _ _).subset ha)
    have hb' : b ∈ freqList t :=
      (sortDescBy_perm _ _).mem_iff.mp ((List.take_sublist _ _).subset hb)
    rw [← freqList_counts t a ha', ← freqList_counts t b hb']
    exact hab
  · intro t
    exact sortDescBy_stable _ _ _ (pairwise_fst_lt_enumFrom' 0 _)

theorem topTerms_ranked_witness :
    List.Pairwise
      (fun v w =>
        (tokenize "cat cat dog bird").count w ≤ (tokenize "cat cat dog bird").count v)
      (topTerms "cat cat dog bird" 3) :=
  topTerms_is_ranked_freq_table.2.1 "cat cat dog bird" 3

/-- **C10** (implicit): `topTerms` never returns duplicate terms, and every
    returned term occurs in `tokenize` of the input. -/
theorem topTerms_nodup_and_from_tokens :
    ∀ t k, (topTerms t k).Nodup ∧ ∀ w ∈ topTerms t k, w ∈ tokenize t := by
  intro t k
  have hperm := sortDescBy_perm (fun p : String × Nat => p.2) (freqList t)
  constructor
  · rw [topTerms, List.map_take]
    have hnd : ((sortDescBy (fun p : String × Nat => p.2) (freqList t)).map Prod.fst).Nodup :=
      ((hperm.map Prod.fst).nodup_iff).mpr (freqList_nodup_keys t)
    exact List.Nodup.sublist (List.take_sublist _ _) hnd
  · intro w hw
    exact mem_tokenize_of_mem_topTerms hw

theorem topTerms_nodup_witness :
    "cat" ∈ tokenize "cat cat dog bird" :=
  (topTerms_nodup_and_from_tokens "cat cat dog bird" 3).2 "cat" (by decide)

/-! ### Claims about the takeaway selector -/

/-- **C4**: `keyTakeaways` returns at most `min n (number of sentences)`
    elements, each returned sentence appears verbatim in the sentence split,
    the returned list is a prefix of a score-descending stable arrangement
    of all sentences (so the returned sentences are the top-scoring ones),
    and the sort of the position-indexed sentence list is ordered by score
    descending with the original sentence position breaking ties. -/
theorem keyTakeaways_top_scoring :
    ∀ (t : String) (n : Nat),
      (keyTakeaways t n).length ≤ min n (sentenceSplit t).length ∧
      (∀ s ∈ keyTakeaways t n, s ∈ sentenceSplit t) ∧
      List.Pairwise (fun a b => scoreOf b ≤ scoreOf a) (keyTakeaways t n) ∧
      (∃ rest, List.Perm (keyTakeaways t n ++ rest) (sentenceSplit t) ∧
        List.Pairwise (fun a b => scoreOf b ≤ scoreOf a) (keyTakeaways t n ++ rest)) ∧
      List.Pairwise
        (fun a b => scoreOf b.2 < scoreOf a.2 ∨ (scoreOf a.2 = scoreOf b.2 ∧ a.1 < b.1))
        (sortDescBy (fun p => scoreOf p.2) (sentenceSplit t).enum) ∧
      keyTakeaways t n =
        ((sortDescBy (fun p => scoreOf p.2) (sentenceSplit t).enum).take
          (min n (sentenceSplit t).length)).map Prod.snd := by
  intro t n
  have hperm := sortDescBy_perm scoreOf (sentenceSplit t)
  refine ⟨?_, ?_, ?_, ?_, ?_, ?_⟩
  · rw [keyTakeaways, List.length_take, hperm.length_eq]
    omega
  · intro s hs
    exact hperm.mem_iff.mp ((List.take_sublist _ _).subset hs)
  · exact (sortDescBy_sorted scoreOf (sentenceSplit t)).sublist (List.take_sublist _ _)
  · refine ⟨(sortDescBy scoreOf (sentenceSplit t)).drop (min n (sentenceSplit t).length),
      ?_, ?_⟩
    · rw [keyTakeaways, List.take_append_drop]
      exact hperm
    · rw [keyTakeaways, List.take_append_drop]
      exact sortDescBy_sorted scoreOf (sentenceSplit t)
  · exact sortDescBy_stable _ _ _ (pairwise_fst_lt_enumFrom' 0 _)
  · rw [keyTakeaways, ← sortDescBy_enum_map_snd scoreOf (sentenceSplit t), List.map_take]

theorem keyTakeaways_top_scoring_witness :
    "Alpha beta." ∈ sentenceSplit "Alpha beta. Bye." :=
  (keyTakeaways_top_scoring "Alpha beta. Bye." 1).2.1 "Alpha beta." (by decide)

/-! ### Claims about the title guesser -/

theorem asString_eq_empty_iff {l : List Char} : l.asString = "" ↔ l = [] := by
  constructor
  · intro h
    have hd : l.asString.data = ("" : String).data := by rw [h]
    simpa using hd
  · rintro rfl
    rfl

/-- **C1** counterexample: `guessTitle` can return the empty string — on the
    input `"..."` the short first line consists entirely of characters of the
    strip class `[\-•\d.\s]`, the prefix strip removes all of them, and the
    `"Notes"` fallback is not applied. -/
theorem guessTitle_empty_counterexample :
    guessTitle "..." = "" ∧ guessTitle "..." ≠ "Notes" :=
  ⟨by decide, by decide⟩

/-- **C1** (amended): when the (fallback-resolved) first line of the
    normalized text is shorter than 80 characters, `guessTitle` returns that
    line with its leading bullet/numeral/hyphen/dot/whitespace prefix
    stripped — which is empty exactly when that line consists entirely of
    such characters; otherwise it returns the top-5 capitalized terms
    joined with `" • "`, or `"Notes"` when no terms exist; and
    `guessTitle "" = "Notes"`. -/
theorem guessTitle_branches_amended :
    (∀ t : String,
      (guessTitle t = "" ↔
        (firstLineOf t).length < 80 ∧ (firstLineOf t).all isTitleStrip) ∧
      ((firstLineOf t).length < 80 →
        guessTitle t = ((firstLineOf t).dropWhile isTitleStrip).asString) ∧
      (¬(firstLineOf t).length < 80 →
        (joinSep " • " ((topTerms t 5).map capFirst) = "" → guessTitle t = "Notes") ∧
        (joinSep " • " ((topTerms t 5).map capFirst) ≠ "" →
          guessTitle t = joinSep " • " ((topTerms t 5).map capFirst)))) ∧
    guessTitle "" = "Notes" := by
  refine ⟨?_, by decide⟩
  intro t
  by_cases hlen : (firstLineOf t).length < 80
  · refine ⟨?_, fun _ => by simp [guessTitle, hlen], fun h => absurd hlen h⟩
    rw [guessTitle]
    simp only [hlen, if_true]
    rw [asString_eq_empty_iff, List.dropWhile_eq_nil_iff]
    simp [hlen, List.all_eq_true]
  · refine ⟨?_, fun h => absurd h hlen, fun _ => ⟨?_, ?_⟩⟩
    · constructor
      · intro hj
        exfalso
        rw [guessTitle] at hj
        simp only [hlen, if_false] at hj
        by_cases hj0 : joinSep " • " ((topTerms t 5).map capFirst) = "" <;>
          simp [hj0] at hj
      · rintro ⟨h, -⟩
        exact absurd h hlen
    · intro hj0
      rw [guessTitle]
      simp [hlen, hj0]
    · intro hj0
      rw [guessTitle]
      simp [hlen, hj0]

theorem guessTitle_amended_witness :
    guessTitle "Hello" = ((firstLineOf "Hello").dropWhile isTitleStrip).asString :=
  (guessTitle_branches_amended.1 "Hello").2.1 (by decide)

/-! ### Character membership lemmas -/

theorem mem_of_mem_dropWhile {p : Char → Bool} {c : Char} :
    ∀ {l : List Char}, c ∈ l.dropWhile p → c ∈ l := by
  intro l
  induction l with
  | nil => intro h; simp at h
  | cons d ds ih =>
    intro h
    simp only [List.dropWhile_cons] at h
    split at h
    · exact List.mem_cons_of_mem _ (ih h)
    · exact h

theorem mem_trimJs {c : Char} {l : List Char} (h : c ∈ trimJs l) : c ∈ l := by
  rw [trimJs, List.mem_reverse] at h
  have h1 := mem_of_mem_dropWhile h
  rw [List.mem_reverse] at h1
  exact mem_of_mem_dropWhile h1

theorem mem_collapseRunsBy {p : Char → Bool} {c : Char} :
    ∀ {l : List Char} {b : Bool}, c ∈ collapseRunsBy p b l →
      c = ' ' ∨ (c ∈ l ∧ p c = false) := by
  intro l
  induction l with
  | nil => intro b h; simp [collapseRunsBy] at h
  | cons d ds ih =>
    intro b h
    rw [collapseRunsBy] at h
    by_cases hd : p d = true
    · rw [if_pos hd] at h
      by_cases hb : b = true
      · rw [if_pos hb] at h
        rcases ih h with h' | ⟨h1, h2⟩
        · exact Or.inl h'
        · exact Or.inr ⟨List.mem_cons_of_mem _ h1, h2⟩
      · rw [if_neg hb] at h
        rcases List.mem_cons.mp h with rfl | h'
        · exact Or.inl rfl
        · rcases ih h' with h'' | ⟨h1, h2⟩
          · exact Or.inl h''
          · exact Or.inr ⟨List.mem_cons_of_mem _ h1, h2⟩
    · rw [if_neg hd] at h
      rcases List.mem_cons.mp h with rfl | h'
      · exact Or.inr ⟨List.mem_cons_self _ _, by simpa using hd⟩
      · rcases ih h' with h'' | ⟨h1, h2⟩
        · exact Or.inl h''
        · exact Or.inr ⟨List.mem_cons_of_mem _ h1, h2⟩

theorem mem_of_mem_splitRunsAux {p : Char → Bool} {c : Char} :
    ∀ {l : List Char} {acc : List Char} {prev : Bool} {f : List Char},
      f ∈ splitRunsAux p prev acc l → c ∈ f → c ∈ acc ∨ (c ∈ l ∧ p c = false) := by
  intro l
  induction l with
  | nil =>
    intro acc prev f hf hc
    simp only [splitRunsAux, List.mem_singleton] at hf
    subst hf
    exact Or.inl (List.mem_reverse.mp hc)
  | cons d ds ih =>
    intro acc prev f hf hc
    rw [splitRunsAux] at hf
    by_cases hd : p d = true
    · rw [if_pos hd] at hf
      by_cases hb : prev = true
      · rw [if_pos hb] at hf
        rcases ih hf hc with h' | ⟨h1, h2⟩
        · exact Or.inl h'
        · exact Or.inr ⟨List.mem_cons_of_mem _ h1, h2⟩
      · rw [if_neg hb] at hf
        rcases List.mem_cons.mp hf with rfl | hf'
        · exact Or.inl (List.mem_reverse.mp hc)
        · rcases ih hf' hc with h' | ⟨h1, h2⟩
          · simp at h'
          · exact Or.inr ⟨List.mem_cons_of_mem _ h1, h2⟩
    · rw [if_neg hd] at hf
      rcases ih hf hc with h' | ⟨h1, h2⟩
      · rcases List.mem_cons.mp h' with rfl | h''
        · exact Or.inr ⟨List.mem_cons_self _ _, by simpa using hd⟩
        · exact Or.inl h''
      · exact Or.inr ⟨List.mem_cons_of_mem _ h1, h2⟩

theorem mem_of_mem_sentSplitAux {c : Char} :
    ∀ {l : List Char} {acc : List Char} {st : Nat} {f : List Char},
      f ∈ sentSplitAux st acc l → c ∈ f → c ∈ acc ∨ c ∈ l := by
  intro l
  induction l with
  | nil =>
    intro acc st f hf hc
    simp only [sentSplitAux, List.mem_singleton] at hf
    subst hf
    exact Or.inl (List.mem_reverse.mp hc)
  | cons d ds ih =>
    intro acc st f hf hc
    rw [sentSplitAux] at hf
    by_cases hw : isJsWs d = true
    · rw [if_pos hw] at hf
      by_cases h1 : (st == 1) = true
      · rw [if_pos h1] at hf
        rcases List.mem_cons.mp hf with rfl | hf'
        · exact Or.inl (List.mem_reverse.mp hc)
        · rcases ih hf' hc with h' | h'
          · simp at h'
          · exact Or.inr (List.mem_cons_of_mem _ h')
      · rw [if_neg h1] at hf
        by_cases h2 : (st == 2) = true
        · rw [if_pos h2] at hf
          rcases ih hf hc with h' | h'
          · simp at h'
          · exact Or.inr (List.mem_cons_of_mem _ h')
        · rw [if_neg h2] at hf
          rcases ih hf hc with h' | h'
          · rcases List.mem_cons.mp h' with rfl | h''
            · exact Or.inr (List.mem_cons_self _ _)
            · exact Or.inl h''
          · exact Or.inr (List.mem_cons_of_mem _ h')
    · rw [if_neg hw] at hf
      rcases ih hf hc with h' | h'
      · rcases List.mem_cons.mp h' with rfl | h''
        · exact Or.inr (List.mem_cons_self _ _)
        · exact Or.inl h''
      · exact Or.inr (List.mem_cons_of_mem _ h')

theorem data_asString (l : List Char) : l.asString.data = l := rfl

/-! ### No-newline lemmas for the Markdown components -/

theorem token_chars_not_ws {t : String} {w : String} (hw : w ∈ tokenize t) :
    ∀ c ∈ w.data, isJsWs c = false := by
  intro c hc
  rw [tokenize] at hw
  have hw' := List.mem_of_mem_filter hw
  rcases List.mem_map.mp hw' with ⟨f, hf, rfl⟩
  rw [data_asString] at hc
  rcases mem_of_mem_splitRunsAux hf hc with h | ⟨-, h2⟩
  · simp at h
  · exact h2

theorem token_no_newline {t : String} {w : String} (hw : w ∈ tokenize t) :
    '\n' ∉ w.data := by
  intro hc
  have := token_chars_not_ws hw _ hc
  simp [isJsWs] at this

theorem sentence_no_newline {t : String} {s : String} (hs : s ∈ sentenceSplit t) :
    '\n' ∉ s.data := by
  intro hc
  rw [sentenceSplit] at hs
  have hs' := List.mem_of_mem_filter hs
  rcases List.mem_map.mp hs' with ⟨f, hf, rfl⟩
  rw [data_asString] at hc
  rcases mem_of_mem_sentSplitAux hf hc with h | h
  · simp at h
  · rcases mem_collapseRunsBy h with h' | ⟨-, h2⟩
    · simp at h'
    · simp [isJsWs] at h2

theorem line_no_newline {L : List Char} {line : List Char}
    (hl : line ∈ splitRunsAux (fun c => c == '\n') false [] L) : '\n' ∉ line := by
  intro hc
  rcases mem_of_mem_splitRunsAux hl hc with h | ⟨-, h2⟩
  · simp at h
  · simp at h2

theorem mem_data_joinSep {c : Char} (sep : String) :
    ∀ (parts : List String), c ∈ (joinSep sep parts).data →
      c ∈ sep.data ∨ ∃ p ∈ parts, c ∈ p.data := by
  intro parts
  induction parts with
  | nil => intro h; simp [joinSep] at h
  | cons x rest ih =>
    intro h
    cases rest with
    | nil =>
      rw [joinSep] at h
      exact Or.inr ⟨x, List.mem_singleton_self _, h⟩
    | cons y rest' =>
      rw [joinSep] at h
      have hd : (x ++ sep ++ joinSep sep (y :: rest')).data =
          x.data ++ sep.data ++ (joinSep sep (y :: rest')).data := rfl
      rw [hd] at h
      rcases List.mem_append.mp h with h1 | h1
      · rcases List.mem_append.mp h1 with h2 | h2
        · exact Or.inr ⟨x, List.mem_cons_self _ _, h2⟩
        · exact Or.inl h2
      · rcases ih h1 with h2 | ⟨p, hp, hcp⟩
        · exact Or.inl h2
        · exact Or.inr ⟨p, List.mem_cons_of_mem _ hp, hcp⟩

theorem chunk_no_newline {text : String} :
    ∀ ch ∈ chunkOutline text, '\n' ∉ ch.heading.data ∧ '\n' ∉ ch.body.data := by
  rw [chunkOutline]
  have hlines : ∀ line ∈ splitRunsAux (fun c => c == '\n') false []
      (cleanTextL text.data), '\n' ∉ line := fun line hl => line_no_newline hl
  generalize splitRunsAux (fun c => c == '\n') false [] (cleanTextL text.data) = lines at hlines
  have key : ∀ (ls buf : List (List Char)), (∀ l ∈ ls, '\n' ∉ l) →
      (∀ b ∈ buf, '\n' ∉ b) →
      ∀ ch ∈ chunkLoop buf ls, '\n' ∉ ch.heading.data ∧ '\n' ∉ ch.body.data := by
    intro ls
    induction ls with
    | nil =>
      intro buf _ hbuf ch hch
      rw [chunkLoop] at hch
      split at hch
      · simp at hch
      · rw [List.mem_singleton] at hch
        subst hch
        refine ⟨show '\n' ∉ ("Section" : String).data by decide, ?_⟩
        intro hc
        rcases mem_data_joinSep " " (buf.map List.asString) hc with h | ⟨p, hp, hcp⟩
        · simp at h
        · rcases List.mem_map.mp hp with ⟨b, hb, rfl⟩
          rw [data_asString] at hcp
          exact hbuf b hb hcp
    | cons line rest ih =>
      intro buf hls hbuf ch hch
      rw [chunkLoop] at hch
      have hline : '\n' ∉ line := hls line (List.mem_cons_self _ _)
      have hrest : ∀ l ∈ rest, '\n' ∉ l := fun l hl => hls l (List.mem_cons_of_mem _ hl)
      split at hch
      · rcases List.mem_append.mp hch with h1 | h1
        · split at h1
          · simp at h1
          · rw [List.mem_singleton] at h1
            subst h1
            refine ⟨show '\n' ∉ ("Section" : String).data by decide, ?_⟩
            intro hc
            rcases mem_data_joinSep " " (buf.map List.asString) hc with h | ⟨p, hp, hcp⟩
            · simp at h
            · rcases List.mem_map.mp hp with ⟨b, hb, rfl⟩
              rw [data_asString] at hcp
              exact hbuf b hb hcp
        · rcases List.mem_cons.mp h1 with rfl | h2
          · refine ⟨?_, show '\n' ∉ ("" : String).data by decide⟩
            intro hc
            rw [data_asString] at hc
            exact hline (mem_trimJs hc)
          · exact ih _ hrest (by simp) ch h2
      · refine ih _ hrest ?_ ch hch
        intro b hb
        rcases List.mem_append.mp hb with h1 | h1
        · exact hbuf b h1
        · rw [List.mem_singleton] at h1
          subst h1
          intro hc
          exact hline (mem_trimJs hc)
  exact key lines [] hlines (by simp)

theorem toUpper_eq_newline_imp {d : Char} (h : d.toUpper = '\n') : d = '\n' := by
  by_cases hcond : d.toNat ≥ 97 ∧ d.toNat ≤ 122
  · exfalso
    simp only [Char.toUpper] at h
    rw [if_pos hcond] at h
    have hv : (d.toNat - 32).isValidChar := Or.inl (by omega)
    have ht : (Char.ofNat (d.toNat - 32)).toNat = d.toNat - 32 := by
      rw [Char.ofNat, dif_pos hv]
      rfl
    have h10 : (Char.ofNat (d.toNat - 32)).toNat = ('\n' : Char).toNat := by rw [h]
    rw [ht] at h10
    have hn : ('\n' : Char).toNat = 10 := rfl
    omega
  · simp only [Char.toUpper] at h
    rw [if_neg hcond] at h
    exact h

theorem capFirst_no_newline {w : String} (h : '\n' ∉ w.data) :
    '\n' ∉ (capFirst w).data := by
  intro hc
  rw [capFirst] at hc
  split at hc
  · simp at hc
  · next c rest heq =>
    rw [data_asString] at hc
    rcases List.mem_cons.mp hc with he | hr
    · have hcn : c = '\n' := toUpper_eq_newline_imp he.symm
      apply h
      rw [heq, hcn]
      exact List.mem_cons_self _ _
    · apply h
      rw [heq]
      exact List.mem_cons_of_mem _ hr

theorem title_no_newline (t : String) : '\n' ∉ (guessTitle t).data := by
  intro hc
  rw [guessTitle] at hc
  split at hc
  · rw [data_asString] at hc
    have h1 := mem_of_mem_dropWhile hc
    rw [firstLineOf] at h1
    split at h1
    · simp at h1
    · next hne =>
      rcases hh : (splitRunsAux (fun c => c == '\n') false [] (cleanTextL t.data)) with - | ⟨f, fs⟩
      · rw [hh] at h1
        simp at h1
      · rw [hh] at h1
        simp only [List.headD_cons] at h1
        exact line_no_newline (hh ▸ List.mem_cons_self f fs) h1
  · by_cases hj : joinSep " • " (List.map capFirst (topTerms t 5)) = ""
    · have he : (let j := joinSep " • " (List.map capFirst (topTerms t 5));
          if (j == "") = true then "Notes" else j) = "Notes" := by
        simp [hj]
      rw [he] at hc
      exact absurd hc (by decide)
    · have he : (let j := joinSep " • " (List.map capFirst (topTerms t 5));
          if (j == "") = true then "Notes" else j) =
          joinSep " • " (List.map capFirst (topTerms t 5)) := by
        simp [hj]
      rw [he] at hc
      rcases mem_data_joinSep _ _ hc with h | ⟨p, hp, hcp⟩
      · simp at h
      · rcases List.mem_map.mp hp with ⟨w, hw, rfl⟩
        exact capFirst_no_newline
          (token_no_newline (mem_tokenize_of_mem_topTerms hw)) hcp

/-! ### Splitting the joined Markdown back into lines -/

theorem data_append (a b : String) : (a ++ b).data = a.data ++ b.data := rfl

theorem splitEvery_no_sep {sep : Char} :
    ∀ {l : List Char}, (∀ c ∈ l, c ≠ sep) → splitEvery sep l = [l] := by
  intro l
  induction l with
  | nil => intro _; rfl
  | cons c cs ih =>
    intro h
    have hc : c ≠ sep := h c (List.mem_cons_self _ _)
    rw [splitEvery, if_neg (by simp [hc]),
      ih fun d hd => h d (List.mem_cons_of_mem _ hd)]
    rfl

theorem splitEvery_append_sep {sep : Char} :
    ∀ {xs : List Char} (ys : List Char), (∀ c ∈ xs, c ≠ sep) →
      splitEvery sep (xs ++ sep :: ys) = xs :: splitEvery sep ys := by
  intro xs
  induction xs with
  | nil =>
    intro ys _
    rw [List.nil_append, splitEvery, if_pos (by simp)]
  | cons c cs ih =>
    intro ys h
    have hc : c ≠ sep := h c (List.mem_cons_self _ _)
    rw [List.cons_append, splitEvery, if_neg (by simp [hc]),
      ih ys fun d hd => h d (List.mem_cons_of_mem _ hd)]
    rfl

theorem linesOf_joinSep :
    ∀ (parts : List String), parts ≠ [] → (∀ p ∈ parts, '\n' ∉ p.data) →
      linesOf (joinSep "\n" parts) = parts := by
  intro parts
  induction parts with
  | nil => intro h _; exact absurd rfl h
  | cons x rest ih =>
    intro _ hnl
    cases rest with
    | nil =>
      rw [joinSep, linesOf,
        splitEvery_no_sep fun c hc he => hnl x (List.mem_singleton_self _)
          (by rw [← he]; exact hc)]
      rfl
    | cons y rest' =>
      rw [linesOf]
      have hd : (joinSep "\n" (x :: y :: rest')).data =
          x.data ++ ("\n" : String).data ++ (joinSep "\n" (y :: rest')).data := rfl
      have hsm : x.data ++ ("\n" : String).data ++ (joinSep "\n" (y :: rest')).data =
          x.data ++ '\n' :: (joinSep "\n" (y :: rest')).data := by
        rw [List.append_assoc]
        rfl
      rw [hd, hsm,
        splitEvery_append_sep _ fun c hc he => hnl x (List.mem_cons_self _ _)
          (by rw [← he]; exact hc),
        List.map_cons]
      have hx : x.data.asString = x := rfl
      have hrest := ih (by simp) fun p hp => hnl p (List.mem_cons_of_mem _ hp)
      rw [linesOf] at hrest
      rw [hx, hrest]

theorem mem_sentenceSplit_of_mem_keyTakeaways {t : String} {n : Nat} {s : String}
    (h : s ∈ keyTakeaways t n) : s ∈ sentenceSplit t :=
  (sortDescBy_perm scoreOf (sentenceSplit t)).mem_iff.mp ((List.take_sublist _ _).subset h)

/-! ### The Markdown assembler -/

/-- **C9**: for every input, the Markdown document splits at newlines into
    exactly: the `"# "` title line, a blank line, the literal
    `"## Key Takeaways"` header followed by one `"- "` bullet line per
    takeaway, a blank line, the literal `"## Outline"` header followed by one
    `"- **heading** — body"` bullet per outline chunk (body truncated to its
    first 220 characters), a blank line, and the literal `"## Terms"` header
    followed by a single `"> "` blockquote line of the comma-joined terms —
    so the output begins with `"# "` plus the guessed title and contains the
    three section headers in that fixed order. -/
theorem toMarkdown_lines_structure :
    ∀ text : String,
      linesOf (toMarkdown text) =
        ["# " ++ guessTitle text, "", "## Key Takeaways"] ++
        (keyTakeaways text 6).map (fun s => "- " ++ s) ++
        ["", "## Outline"] ++
        (chunkOutline text).map
          (fun c => "- **" ++ c.heading ++ "** — " ++ sliceUpTo 220 c.body) ++
        ["", "## Terms", "> " ++ joinSep ", " (topTerms text 12)] := by
  intro text
  rw [toMarkdown]
  refine linesOf_joinSep _ (by simp) ?_
  intro p hp
  rcases List.mem_append.mp hp with hp | h5
  · rcases List.mem_append.mp hp with hp | h4
    · rcases List.mem_append.mp hp with hp | h3
      · rcases List.mem_append.mp hp with h1 | h2
        · simp only [List.mem_cons, List.not_mem_nil, or_false] at h1
          rcases h1 with rfl | rfl | rfl
          · intro hc
            rw [data_append] at hc
            rcases List.mem_append.mp hc with h | h
            · exact absurd h (by decide)
            · exact title_no_newline text h
          · exact by decide
          · exact by decide
        · rcases List.mem_map.mp h2 with ⟨s, hs, rfl⟩
          intro hc
          rw [data_append] at hc
          rcases List.mem_append.mp hc with h | h
          · exact absurd h (by decide)
          · exact sentence_no_newline (mem_sentenceSplit_of_mem_keyTakeaways hs) h
      · simp only [List.mem_cons, List.not_mem_nil, or_false] at h3
        rcases h3 with rfl | rfl
        · exact by decide
        · exact by decide
    · rcases List.mem_map.mp h4 with ⟨ch, hch, rfl⟩
      intro hc
      rw [data_append, data_append, data_append] at hc
      rcases List.mem_append.mp hc with h | h
      · rcases List.mem_append.mp h with h' | h'
        · rcases List.mem_append.mp h' with h'' | h''
          · exact absurd h'' (by decide)
          · exact (chunk_no_newline ch hch).1 h''
        · exact absurd h' (by decide)
      · have hb : (sliceUpTo 220 ch.body).data = ch.body.data.take 220 := rfl
        rw [hb] at h
        exact (chunk_no_newline ch hch).2 ((List.take_sublist _ _).subset h)
  · simp only [List.mem_cons, List.not_mem_nil, or_false] at h5
    rcases h5 with rfl | rfl | rfl
    · exact by decide
    · exact by decide
    · intro hc
      rw [data_append] at hc
      rcases List.mem_append.mp hc with h | h
      · exact absurd h (by decide)
      · rcases mem_data_joinSep _ _ h with h' | ⟨w, hw, hcw⟩
        · exact absurd h' (by decide)
        · exact token_no_newline (mem_tokenize_of_mem_topTerms hw) hcw

/-! ### Adjacent-pair and newline-run predicates: basic lemmas -/

theorem relFree_tail {R : Char → Char → Bool} {a : Char} :
    ∀ {l : List Char}, relFree R (a :: l) = true → relFree R l = true := by
  intro l h
  cases l with
  | nil => rfl
  | cons b rest =>
    rw [relFree, Bool.and_eq_true] at h
    exact h.2

theorem relFree_head {R : Char → Char → Bool} {a d : Char} :
    ∀ {l : List Char}, relFree R (a :: l) = true → l.head? = some d → R a d = false := by
  intro l h hd
  cases l with
  | nil => simp at hd
  | cons b rest =>
    rw [List.head?_cons, Option.some.injEq] at hd
    subst hd
    rw [relFree, Bool.and_eq_true] at h
    simpa using h.1

theorem relFree_cons_intro {R : Char → Char → Bool} {a : Char} {l : List Char}
    (hhead : ∀ d, l.head? = some d → R a d = false) (hl : relFree R l = true) :
    relFree R (a :: l) = true := by
  cases l with
  | nil => rfl
  | cons b rest =>
    rw [relFree, Bool.and_eq_true]
    exact ⟨by simp [hhead b rfl], hl⟩

theorem relFree_append_left {R : Char → Char → Bool} {ys : List Char} :
    ∀ {xs : List Char}, relFree R (xs ++ ys) = true → relFree R xs = true := by
  intro xs
  induction xs with
  | nil => intro _; rfl
  | cons a xs' ih =>
    intro h
    cases xs' with
    | nil => rfl
    | cons b rest =>
      rw [List.cons_append] at h
      rw [relFree, Bool.and_eq_true]
      rw [List.cons_append, relFree, Bool.and_eq_true] at h
      exact ⟨h.1, ih h.2⟩

theorem relFree_append_right {R : Char → Char → Bool} {ys : List Char} :
    ∀ {xs : List Char}, relFree R (xs ++ ys) = true → relFree R ys = true := by
  intro xs
  induction xs with
  | nil => intro h; exact h
  | cons a xs' ih =>
    intro h
    rw [List.cons_append] at h
    exact ih (relFree_tail h)

theorem relFree_of_all {R : Char → Char → Bool} (hR : ∀ a b, R a b = false) :
    ∀ l : List Char, relFree R l = true := by
  intro l
  induction l with
  | nil => rfl
  | cons a l ih =>
    exact relFree_cons_intro (fun d _ => hR a d) ih

theorem tripleNLFree_tail {a : Char} :
    ∀ {l : List Char}, tripleNLFree (a :: l) = true → tripleNLFree l = true := by
  intro l h
  match l with
  | [] => rfl
  | [b] => rfl
  | b :: c :: rest =>
    rw [tripleNLFree, Bool.and_eq_true] at h
    exact h.2

theorem tripleNLFree_append_left {ys : List Char} :
    ∀ {xs : List Char}, tripleNLFree (xs ++ ys) = true → tripleNLFree xs = true := by
  intro xs
  induction xs with
  | nil => intro _; rfl
  | cons a xs' ih =>
    intro h
    match xs', ih with
    | [], _ => rfl
    | [b], _ => rfl
    | b :: c :: rest, ih =>
      rw [List.cons_append, List.cons_append, List.cons_append, tripleNLFree,
        Bool.and_eq_true] at h
      rw [tripleNLFree, Bool.and_eq_true]
      exact ⟨h.1, ih (by rw [List.cons_append, List.cons_append]; exact h.2)⟩

theorem tripleNLFree_append_right {ys : List Char} :
    ∀ {xs : List Char}, tripleNLFree (xs ++ ys) = true → tripleNLFree ys = true := by
  intro xs
  induction xs with
  | nil => intro h; exact h
  | cons a xs' ih =>
    intro h
    rw [List.cons_append] at h
    exact ih (tripleNLFree_tail h)

theorem tripleNLFree_cons_of_ne {c : Char} (hc : ¬c = '\n') :
    ∀ {l : List Char}, tripleNLFree l = true → tripleNLFree (c :: l) = true := by
  intro l h
  match l with
  | [] => rfl
  | [b] => rfl
  | b :: d :: rest =>
    rw [tripleNLFree, Bool.and_eq_true]
    exact ⟨by simp [hc], h⟩

theorem tripleNLFree_cons_mid {a b : Char} (hb : ¬b = '\n') :
    ∀ {l : List Char}, tripleNLFree (b :: l) = true → tripleNLFree (a :: b :: l) = true := by
  intro l h
  match l with
  | [] => rfl
  | d :: rest =>
    rw [tripleNLFree, Bool.and_eq_true]
    exact ⟨by simp [hb], h⟩

/-! ### Trimming: idempotence and the contiguous-segment view -/

theorem dropWhile_idem {p : Char → Bool} :
    ∀ l : List Char, (l.dropWhile p).dropWhile p = l.dropWhile p := by
  intro l
  induction l with
  | nil => rfl
  | cons c cs ih =>
    by_cases hc : p c = true
    · rw [List.dropWhile_cons, if_pos hc, ih]
    · rw [List.dropWhile_cons, if_neg hc, List.dropWhile_cons, if_neg hc]

theorem dropWhile_length_le {p : Char → Bool} :
    ∀ l : List Char, (l.dropWhile p).length ≤ l.length := by
  intro l
  induction l with
  | nil => exact Nat.le_refl _
  | cons c cs ih =>
    by_cases hc : p c = true
    · rw [List.dropWhile_cons, if_pos hc]
      exact Nat.le_trans ih (Nat.le_succ _)
    · rw [List.dropWhile_cons, if_neg hc]

theorem head_not_of_dropWhile_eq {p : Char → Bool} {c : Char} {cs : List Char}
    (h : (c :: cs).dropWhile p = c :: cs) : p c = false := by
  by_cases hc : p c = true
  · exfalso
    rw [List.dropWhile_cons, if_pos hc] at h
    have hlen := congrArg List.length h
    have hle := dropWhile_length_le (p := p) cs
    simp only [List.length_cons] at hlen
    omega
  · simpa using hc

theorem dropWhile_append_last {p : Char → Bool} {c : Char} (hc : p c = false) :
    ∀ xs : List Char, ∃ ys, (xs ++ [c]).dropWhile p = ys ++ [c] := by
  intro xs
  induction xs with
  | nil =>
    refine ⟨[], ?_⟩
    rw [List.nil_append, List.dropWhile_cons, if_neg (by simp [hc])]
  | cons d ds ih =>
    by_cases hd : p d = true
    · rw [List.cons_append, List.dropWhile_cons, if_pos hd]
      exact ih
    · exact ⟨d :: ds, by rw [List.cons_append, List.dropWhile_cons, if_neg hd]⟩

theorem trimJs_idem (l : List Char) : trimJs (trimJs l) = trimJs l := by
  have hfront : (trimJs l).dropWhile isJsWs = trimJs l := by
    rw [trimJs]
    cases hm : l.dropWhile isJsWs with
    | nil => rfl
    | cons c cs =>
      have hc : isJsWs c = false := by
        have : (c :: cs).dropWhile isJsWs = c :: cs := by
          rw [← hm, dropWhile_idem]
        exact head_not_of_dropWhile_eq this
      rcases dropWhile_append_last hc cs.reverse with ⟨ys, hys⟩
      rw [List.reverse_cons, hys, List.reverse_append, List.reverse_singleton,
        List.singleton_append, List.dropWhile_cons, if_neg (by simp [hc])]
  show (((trimJs l).dropWhile isJsWs).reverse.dropWhile isJsWs).reverse = trimJs l
  rw [hfront]
  rw [trimJs, List.reverse_reverse, dropWhile_idem]

theorem trimJs_segment (l : List Char) : ∃ pre suf, l = pre ++ (trimJs l ++ suf) := by
  refine ⟨l.takeWhile isJsWs,
    ((l.dropWhile isJsWs).reverse.takeWhile isJsWs).reverse, ?_⟩
  have h1 : l = l.takeWhile isJsWs ++ l.dropWhile isJsWs :=
    (List.takeWhile_append_dropWhile _ _).symm
  have h2 : (l.dropWhile isJsWs).reverse =
      (l.dropWhile isJsWs).reverse.takeWhile isJsWs ++
        (l.dropWhile isJsWs).reverse.dropWhile isJsWs :=
    (List.takeWhile_append_dropWhile _ _).symm
  have h3 : l.dropWhile isJsWs =
      trimJs l ++ ((l.dropWhile isJsWs).reverse.takeWhile isJsWs).reverse := by
    have := congrArg List.reverse h2
    rw [List.reverse_reverse, List.reverse_append] at this
    rw [trimJs]
    exact this
  rw [← h3]
  exact h1

/-! ### Stage identities on already-normalized text -/

theorem replaceNbsp_id : ∀ {l : List Char}, (∀ c ∈ l, c ≠ nbsp) → replaceNbsp l = l := by
  intro l
  induction l with
  | nil => intro _; rfl
  | cons c cs ih =>
    intro h
    have hc : c ≠ nbsp := h c (List.mem_cons_self _ _)
    show (if c == nbsp then ' ' else c) :: replaceNbsp cs = c :: cs
    rw [if_neg (by simp [hc]), ih fun d hd => h d (List.mem_cons_of_mem _ hd)]

theorem collapseRunsBy_isTS_id :
    ∀ {l : List Char}, '\t' ∉ l → relFree tsPair l = true →
      collapseRunsBy isTS false l = l := by
  intro l
  induction l with
  | nil => intro _ _; rfl
  | cons c cs ih =>
    intro htab hpair
    by_cases hc : isTS c = true
    · have hcsp : c = ' ' := by
        have hct : c ≠ '\t' := fun he => htab (he ▸ List.mem_cons_self _ _)
        rw [isTS, Bool.or_eq_true] at hc
        rcases hc with h | h
        · exact absurd (show c = '\t' by simpa using h) hct
        · simpa using h
      rw [collapseRunsBy, if_pos hc, if_neg (by simp)]
      cases cs with
      | nil =>
        rw [hcsp]
        rfl
      | cons d ds =>
        have hpcd : tsPair c d = false := relFree_head hpair rfl
        have hd : isTS d = false := by
          rw [tsPair, hc] at hpcd
          simpa using hpcd
        have hrest : collapseRunsBy isTS false (d :: ds) = d :: ds :=
          ih (fun ht => htab (List.mem_cons_of_mem _ ht)) (relFree_tail hpair)
        have htrue : collapseRunsBy isTS true (d :: ds) = d :: ds := by
          rw [collapseRunsBy, if_neg (by simp [hd])] at hrest ⊢
          exact hrest
        rw [htrue, hcsp]
    · rw [collapseRunsBy, if_neg hc,
        ih (fun ht => htab (List.mem_cons_of_mem _ ht)) (relFree_tail hpair)]

theorem collapseNL_id :
    ∀ {l : List Char} {k : Nat}, k ≤ 2 →
      tripleNLFree (List.replicate k '\n' ++ l) = true →
      collapseNL k l = List.replicate k '\n' ++ l := by
  intro l
  induction l with
  | nil =>
    intro k hk _
    rw [collapseNL, emitNL, if_neg (by omega), List.append_nil]
  | cons c cs ih =>
    intro k hk htr
    by_cases hc : c = '\n'
    · subst hc
      rw [collapseNL, if_pos (by simp)]
      have hk1 : k + 1 ≤ 2 := by
        rcases Nat.lt_or_ge k 2 with h | h
        · omega
        · exfalso
          have hk2 : k = 2 := by omega
          subst hk2
          rw [show List.replicate 2 '\n' = ['\n', '\n'] from rfl] at htr
          rw [show ['\n', '\n'] ++ '\n' :: cs = '\n' :: '\n' :: '\n' :: cs from rfl] at htr
          rw [tripleNLFree] at htr
          simp at htr
      have heq : List.replicate (k + 1) '\n' ++ cs = List.replicate k '\n' ++ '\n' :: cs := by
        rw [List.replicate_succ', List.append_assoc]
        rfl
      rw [ih hk1 (by rw [heq]; exact htr), heq]
    · rw [collapseNL, if_neg (by simp [hc])]
      have hcs : tripleNLFree cs = true :=
        tripleNLFree_tail (tripleNLFree_append_right htr)
      have h0 : collapseNL 0 cs = List.replicate 0 '\n' ++ cs :=
        ih (by omega) (by simpa using hcs)
      rw [show collapseNL 0 cs = cs by simpa using h0]
      rw [emitNL, if_neg (by omega)]

/-! ### Properties of the normalizer's output -/

theorem mem_replaceNbsp {c : Char} {l : List Char} (h : c ∈ replaceNbsp l) : c ≠ nbsp := by
  rw [replaceNbsp] at h
  rcases List.mem_map.mp h with ⟨d, -, rfl⟩
  by_cases hd : d = nbsp
  · rw [if_pos (by simp [hd])]
    decide
  · rw [if_neg (by simp [hd])]
    exact hd

theorem mem_emitNL {c : Char} {k : Nat} (h : c ∈ emitNL k) : c = '\n' := by
  rw [emitNL] at h
  split at h
  · simp at h
    exact h
  · exact List.eq_of_mem_replicate h

theorem mem_collapseNL {c : Char} :
    ∀ {l : List Char} {k : Nat}, c ∈ collapseNL k l → c = '\n' ∨ c ∈ l := by
  intro l
  induction l with
  | nil => intro k h; exact Or.inl (mem_emitNL h)
  | cons d ds ih =>
    intro k h
    rw [collapseNL] at h
    by_cases hd : d = '\n'
    · rw [if_pos (by simp [hd])] at h
      rcases ih h with h' | h'
      · exact Or.inl h'
      · exact Or.inr (List.mem_cons_of_mem _ h')
    · rw [if_neg (by simp [hd])] at h
      rcases List.mem_append.mp h with h' | h'
      · exact Or.inl (mem_emitNL h')
      · rcases List.mem_cons.mp h' with rfl | h''
        · exact Or.inr (List.mem_cons_self _ _)
        · rcases ih h'' with h3 | h3
          · exact Or.inl h3
          · exact Or.inr (List.mem_cons_of_mem _ h3)

theorem head_collapseRunsBy_true {p : Char → Bool} {d : Char} :
    ∀ {cs : List Char}, (collapseRunsBy p true cs).head? = some d → p d = false := by
  intro cs
  induction cs with
  | nil => intro h; simp [collapseRunsBy] at h
  | cons e es ih =>
    intro h
    rw [collapseRunsBy] at h
    by_cases he : p e = true
    · rw [if_pos he, if_pos rfl] at h
      exact ih h
    · rw [if_neg he, List.head?_cons, Option.some.injEq] at h
      subst h
      simpa using he

theorem relFree_tsPair_collapseRunsBy :
    ∀ (l : List Char) (b : Bool), relFree tsPair (collapseRunsBy isTS b l) = true := by
  intro l
  induction l with
  | nil => intro b; rfl
  | cons c cs ih =>
    intro b
    rw [collapseRunsBy]
    by_cases hc : isTS c = true
    · rw [if_pos hc]
      by_cases hb : b = true
      · rw [if_pos hb]
        exact ih true
      · rw [if_neg hb]
        refine relFree_cons_intro ?_ (ih true)
        intro d hd
        rw [tsPair, head_collapseRunsBy_true hd, Bool.and_false]
    · rw [if_neg hc]
      refine relFree_cons_intro ?_ (ih false)
      intro d hd
      rw [tsPair, show isTS c = false by simpa using hc]
      rfl

theorem head_collapseNL_pos {d : Char} :
    ∀ {l : List Char} {k : Nat}, 1 ≤ k → (collapseNL k l).head? = some d → d = '\n' := by
  intro l
  induction l with
  | nil =>
    intro k hk h
    rw [collapseNL, emitNL] at h
    split at h
    · rw [List.head?_cons, Option.some.injEq] at h
      exact h.symm
    · cases k with
      | zero => omega
      | succ k' =>
        rw [List.replicate_succ, List.head?_cons, Option.some.injEq] at h
        exact h.symm
  | cons e es ih =>
    intro k hk h
    rw [collapseNL] at h
    by_cases he : e = '\n'
    · rw [if_pos (by simp [he])] at h
      exact ih (by omega) h
    · rw [if_neg (by simp [he]), emitNL] at h
      split at h
      · rw [List.cons_append, List.head?_cons, Option.some.injEq] at h
        exact h.symm
      · cases k with
        | zero => omega
        | succ k' =>
          rw [List.replicate_succ, List.cons_append, List.head?_cons,
            Option.some.injEq] at h
          exact h.symm

theorem head_collapseNL_zero {d : Char} :
    ∀ {l : List Char}, (collapseNL 0 l).head? = some d → d = '\n' ∨ l.head? = some d := by
  intro l
  cases l with
  | nil =>
    intro h
    rw [collapseNL, emitNL, if_neg (by omega)] at h
    simp at h
  | cons e es =>
    intro h
    rw [collapseNL] at h
    by_cases he : e = '\n'
    · rw [if_pos (by simp [he])] at h
      exact Or.inl (head_collapseNL_pos (by omega) h)
    · rw [if_neg (by simp [he]), emitNL, if_neg (by omega),
        show List.replicate 0 '\n' = ([] : List Char) from rfl, List.nil_append,
        List.head?_cons] at h
      exact Or.inr (by rw [List.head?_cons]; exact h)

theorem relFree_tsPair_of_not_left :
    ∀ {X : List Char}, (∀ a ∈ X, isTS a = false) → relFree tsPair X = true := by
  intro X
  induction X with
  | nil => intro _; rfl
  | cons a Y ih =>
    intro h
    refine relFree_cons_intro ?_ (ih fun b hb => h b (List.mem_cons_of_mem _ hb))
    intro d _
    rw [tsPair, h a (List.mem_cons_self _ _)]
    rfl

theorem relFree_tsPair_append_not_left {X ys : List Char}
    (hX : ∀ a ∈ X, isTS a = false) (hys : relFree tsPair ys = true) :
    relFree tsPair (X ++ ys) = true := by
  induction X with
  | nil => exact hys
  | cons a Y ih =>
    rw [List.cons_append]
    refine relFree_cons_intro ?_ (ih fun b hb => hX b (List.mem_cons_of_mem _ hb))
    intro d _
    rw [tsPair, hX a (List.mem_cons_self _ _)]
    rfl

theorem relFree_tsPair_collapseNL :
    ∀ {l : List Char} {k : Nat}, relFree tsPair l = true →
      relFree tsPair (collapseNL k l) = true := by
  intro l
  induction l with
  | nil =>
    intro k _
    rw [collapseNL]
    exact relFree_tsPair_of_not_left fun a ha => by
      rw [mem_emitNL ha]
      decide
  | cons c cs ih =>
    intro k hl
    rw [collapseNL]
    by_cases hc : c = '\n'
    · rw [if_pos (by simp [hc])]
      exact ih (relFree_tail hl)
    · rw [if_neg (by simp [hc])]
      have hY : relFree tsPair (c :: collapseNL 0 cs) = true := by
        refine relFree_cons_intro ?_ (ih (relFree_tail hl))
        intro d hd
        rcases head_collapseNL_zero hd with rfl | hd'
        · rw [tsPair]
          rw [show isTS '\n' = false from rfl, Bool.and_false]
        · exact relFree_head hl hd'
      refine relFree_tsPair_append_not_left ?_ hY
      intro a ha
      rw [mem_emitNL ha]
      decide

theorem emitNL_cases (k : Nat) :
    emitNL k = [] ∨ emitNL k = ['\n'] ∨ emitNL k = ['\n', '\n'] := by
  rw [emitNL]
  split
  · exact Or.inr (Or.inr rfl)
  · next h =>
    have hk : k ≤ 2 := by omega
    interval_cases k
    · exact Or.inl rfl
    · exact Or.inr (Or.inl rfl)
    · exact Or.inr (Or.inr rfl)

theorem tripleNLFree_collapseNL : ∀ (l : List Char) (k : Nat),
    tripleNLFree (collapseNL k l) = true := by
  intro l
  induction l with
  | nil =>
    intro k
    rcases emitNL_cases k with h | h | h <;> rw [collapseNL, h] <;> rfl
  | cons c cs ih =>
    intro k
    rw [collapseNL]
    by_cases hc : c = '\n'
    · rw [if_pos (by simp [hc])]
      exact ih (k + 1)
    · rw [if_neg (by simp [hc])]
      have hY : tripleNLFree (c :: collapseNL 0 cs) = true :=
        tripleNLFree_cons_of_ne hc (ih 0)
      rcases emitNL_cases k with h | h | h
      · rw [h, List.nil_append]
        exact hY
      · rw [h, List.singleton_append]
        exact tripleNLFree_cons_mid hc hY
      · rw [h, show ['\n', '\n'] ++ c :: collapseNL 0 cs =
          '\n' :: '\n' :: c :: collapseNL 0 cs from rfl]
        have h1 : tripleNLFree ('\n' :: c :: collapseNL 0 cs) = true :=
          tripleNLFree_cons_mid hc hY
        rw [tripleNLFree, Bool.and_eq_true]
        exact ⟨by simp [hc], h1⟩

/-! ### Idempotence of the normalizer -/

/-- **C7**: `normalize` (source name `cleanText`) is idempotent:
    `cleanText (cleanText x) = cleanText x` for every string `x`. -/
theorem cleanText_idempotent : ∀ s : String, cleanText (cleanText s) = cleanText s := by
  have key : ∀ x : List Char, cleanTextL (cleanTextL x) = cleanTextL x := by
    intro x
    have hmem : ∀ c ∈ cleanTextL x, c ≠ nbsp ∧ c ≠ '\t' := by
      intro c hc
      have h3 := mem_trimJs hc
      rcases mem_collapseNL h3 with rfl | h2
      · exact ⟨by decide, by decide⟩
      · rcases mem_collapseRunsBy h2 with rfl | ⟨h1, hts⟩
        · exact ⟨by decide, by decide⟩
        · refine ⟨mem_replaceNbsp h1, ?_⟩
          intro he
          rw [he] at hts
          simp [isTS] at hts
    have hpair : relFree tsPair (cleanTextL x) = true := by
      rcases trimJs_segment (collapseNL 0 (collapseRunsBy isTS false (replaceNbsp x)))
        with ⟨pre, suf, hseg⟩
      have hall : relFree tsPair
          (collapseNL 0 (collapseRunsBy isTS false (replaceNbsp x))) = true :=
        relFree_tsPair_collapseNL (relFree_tsPair_collapseRunsBy _ false)
      rw [hseg] at hall
      exact relFree_append_left (relFree_append_right hall)
    have htriple : tripleNLFree (cleanTextL x) = true := by
      rcases trimJs_segment (collapseNL 0 (collapseRunsBy isTS false (replaceNbsp x)))
        with ⟨pre, suf, hseg⟩
      have hall := tripleNLFree_collapseNL (collapseRunsBy isTS false (replaceNbsp x)) 0
      rw [hseg] at hall
      exact tripleNLFree_append_left (tripleNLFree_append_right hall)
    show trimJs (collapseNL 0 (collapseRunsBy isTS false (replaceNbsp (cleanTextL x)))) =
      cleanTextL x
    rw [replaceNbsp_id fun c hc => (hmem c hc).1]
    rw [collapseRunsBy_isTS_id (fun ht => (hmem '\t' ht).2 rfl) hpair]
    rw [show collapseNL 0 (cleanTextL x) = List.replicate 0 '\n' ++ cleanTextL x from
      collapseNL_id (by omega) (by simpa using htriple)]
    rw [show List.replicate 0 '\n' ++ cleanTextL x = cleanTextL x from rfl]
    show trimJs (trimJs (collapseNL 0 (collapseRunsBy isTS false (replaceNbsp x)))) =
      cleanTextL x
    rw [trimJs_idem]
    rfl
  intro s
  show (cleanTextL (cleanText s).data).asString = cleanText s
  rw [show (cleanText s).data = cleanTextL s.data from rfl, key]
  rfl

/-! ### No punctuation-before-whitespace: preservation through preprocessing -/

theorem relFree_map {R : Char → Char → Bool} {f : Char → Char}
    (hf : ∀ a b, R (f a) (f b) = true → R a b = true) :
    ∀ {l : List Char}, relFree R l = true → relFree R (l.map f) = true := by
  intro l
  induction l with
  | nil => intro _; rfl
  | cons a l ih =>
    intro hl
    rw [List.map_cons]
    refine relFree_cons_intro ?_ (ih (relFree_tail hl))
    intro d hd
    rw [List.head?_map] at hd
    rcases Option.map_eq_some'.mp hd with ⟨e, he, rfl⟩
    cases hR : R (f a) (f e)
    · rfl
    · exact absurd (relFree_head hl he) (by rw [hf a e hR]; simp)

theorem head_collapseRunsBy_false_cases {p : Char → Bool} {d : Char} {cs : List Char}
    (h : (collapseRunsBy p false cs).head? = some d) :
    (cs.head? = some d ∧ p d = false) ∨
      (d = ' ' ∧ ∃ e, cs.head? = some e ∧ p e = true) := by
  cases cs with
  | nil =>
    rw [collapseRunsBy] at h
    simp at h
  | cons e es =>
    rw [collapseRunsBy] at h
    by_cases he : p e = true
    · rw [if_pos he, if_neg (by simp), List.head?_cons, Option.some.injEq] at h
      exact Or.inr ⟨h.symm, e, rfl, he⟩
    · rw [if_neg he, List.head?_cons, Option.some.injEq] at h
      refine Or.inl ⟨by rw [List.head?_cons, h], ?_⟩
      rw [← h]
      simpa using he

theorem relFree_pw_collapseRunsBy {p : Char → Bool}
    (hp : ∀ c, p c = true → isJsWs c = true) :
    ∀ {l : List Char} {b : Bool}, relFree punctWsPair l = true →
      relFree punctWsPair (collapseRunsBy p b l) = true := by
  intro l
  induction l with
  | nil => intro b _; rfl
  | cons c cs ih =>
    intro b hl
    rw [collapseRunsBy]
    by_cases hc : p c = true
    · rw [if_pos hc]
      by_cases hb : b = true
      · rw [if_pos hb]
        exact ih (relFree_tail hl)
      · rw [if_neg hb]
        refine relFree_cons_intro ?_ (ih (relFree_tail hl))
        intro d _
        rw [punctWsPair, show isPunctEnd ' ' = false from rfl]
        rfl
    · rw [if_neg hc]
      refine relFree_cons_intro ?_ (ih (relFree_tail hl))
      intro d hd
      rcases head_collapseRunsBy_false_cases hd with ⟨hd', -⟩ | ⟨rfl, e, he, hpe⟩
      · exact relFree_head hl hd'
      · by_cases hpc : isPunctEnd c = true
        · exfalso
          have hce := relFree_head hl he
          rw [punctWsPair, hpc, Bool.true_and] at hce
          rw [hp e hpe] at hce
          exact absurd hce (by simp)
        · rw [punctWsPair, show isPunctEnd c = false by simpa using hpc]
          rfl

theorem head_collapseNL_zero' {d : Char} :
    ∀ {l : List Char}, (collapseNL 0 l).head? = some d → l.head? = some d := by
  intro l
  cases l with
  | nil =>
    intro h
    rw [collapseNL, emitNL, if_neg (by omega)] at h
    simp at h
  | cons e es =>
    intro h
    rw [collapseNL] at h
    by_cases he : e = '\n'
    · rw [if_pos (by simp [he])] at h
      have hd := head_collapseNL_pos (by omega) h
      rw [List.head?_cons, hd, he]
    · rw [if_neg (by simp [he]), emitNL, if_neg (by omega),
        show List.replicate 0 '\n' = ([] : List Char) from rfl, List.nil_append,
        List.head?_cons] at h
      rw [List.head?_cons]
      exact h

theorem relFree_pw_of_not_left :
    ∀ {X : List Char}, (∀ a ∈ X, isPunctEnd a = false) →
      relFree punctWsPair X = true := by
  intro X
  induction X with
  | nil => intro _; rfl
  | cons a Y ih =>
    intro h
    refine relFree_cons_intro ?_ (ih fun b hb => h b (List.mem_cons_of_mem _ hb))
    intro d _
    rw [punctWsPair, h a (List.mem_cons_self _ _)]
    rfl

theorem relFree_pw_append_not_left {X ys : List Char}
    (hX : ∀ a ∈ X, isPunctEnd a = false) (hys : relFree punctWsPair ys = true) :
    relFree punctWsPair (X ++ ys) = true := by
  induction X with
  | nil => exact hys
  | cons a Y ih =>
    rw [List.cons_append]
    refine relFree_cons_intro ?_ (ih fun b hb => hX b (List.mem_cons_of_mem _ hb))
    intro d _
    rw [punctWsPair, hX a (List.mem_cons_self _ _)]
    rfl

theorem relFree_pw_collapseNL :
    ∀ {l : List Char} {k : Nat}, relFree punctWsPair l = true →
      relFree punctWsPair (collapseNL k l) = true := by
  intro l
  induction l with
  | nil =>
    intro k _
    rw [collapseNL]
    exact relFree_pw_of_not_left fun a ha => by
      rw [mem_emitNL ha]
      rfl
  | cons c cs ih =>
    intro k hl
    rw [collapseNL]
    by_cases hc : c = '\n'
    · rw [if_pos (by simp [hc])]
      exact ih (relFree_tail hl)
    · rw [if_neg (by simp [hc])]
      have hY : relFree punctWsPair (c :: collapseNL 0 cs) = true := by
        refine relFree_cons_intro ?_ (ih (relFree_tail hl))
        intro d hd
        exact relFree_head hl (head_collapseNL_zero' hd)
      refine relFree_pw_append_not_left ?_ hY
      intro a ha
      rw [mem_emitNL ha]
      rfl

/-! ### The splitter performs no split without punctuation-whitespace -/

theorem sentSplitAux_no_split :
    ∀ {l acc : List Char} {st : Nat},
      relFree punctWsPair l = true → st ≠ 2 →
      (st = 1 → ∀ d, l.head? = some d → isJsWs d = false) →
      sentSplitAux st acc l = [acc.reverse ++ l] := by
  intro l
  induction l with
  | nil =>
    intro acc st _ _ _
    rw [sentSplitAux, List.append_nil]
  | cons c cs ih =>
    intro acc st hl hst2 hst1
    rw [sentSplitAux]
    by_cases hw : isJsWs c = true
    · have h1 : (st == 1) = false := by
        by_cases h : st = 1
        · exact absurd (hst1 h c rfl) (by simp [hw])
        · simp [h]
      have h2 : (st == 2) = false := by simp [hst2]
      rw [if_pos hw, if_neg (by simp [h1]), if_neg (by simp [h2]),
        ih (relFree_tail hl) (by omega) fun h => absurd h (by omega)]
      rw [List.reverse_cons, List.append_assoc]
      rfl
    · rw [if_neg hw]
      have hst' : (if isPunctEnd c then 1 else 0) ≠ 2 := by
        split <;> omega
      rw [ih (relFree_tail hl) hst' ?_]
      · rw [List.reverse_cons, List.append_assoc]
        rfl
      · intro h1 d hd
        have hpc : isPunctEnd c = true := by
          by_cases hp : isPunctEnd c = true
          · exact hp
          · rw [if_neg hp] at h1
            omega
        have hfree := relFree_head hl hd
        rw [punctWsPair, hpc, Bool.true_and] at hfree
        exact hfree

/-- **C6**: on an input containing no occurrence of `.`, `!` or `?`
    immediately followed by whitespace, `sentenceSplit` performs no split:
    it returns exactly one sentence — the whole trimmed text, i.e. the
    normalized, whitespace-collapsed text the splitter's preprocessing
    produces — when that text has more than 2 characters, and no sentences
    when its length is at most 2. -/
theorem sentenceSplit_unsplit (t : String) (h : NoPunctThenWs t) :
    sentenceSplit t =
      if 2 < (collapsedText t).length then [collapsedText t] else [] := by
  have h0 : relFree punctWsPair t.data = true := h
  have h1 : relFree punctWsPair (replaceNbsp t.data) = true := by
    refine relFree_map ?_ h0
    intro a b hab
    rw [punctWsPair, Bool.and_eq_true] at hab
    obtain ⟨hpa, hwb⟩ := hab
    rw [punctWsPair, Bool.and_eq_true]
    constructor
    · by_cases ha : a = nbsp
      · rw [if_pos (by simp [ha])] at hpa
        exact absurd hpa (by decide)
      · rwa [if_neg (by simp [ha])] at hpa
    · by_cases hb : b = nbsp
      · rw [hb]
        decide
      · rwa [if_neg (by simp [hb])] at hwb
  have h2 : relFree punctWsPair (collapseRunsBy isTS false (replaceNbsp t.data)) = true := by
    refine relFree_pw_collapseRunsBy ?_ h1
    intro c hc
    rw [isTS, Bool.or_eq_true] at hc
    rcases hc with hc | hc
    · rw [show c = '\t' by simpa using hc]
      decide
    · rw [show c = ' ' by simpa using hc]
      decide
  have h3 : relFree punctWsPair
      (collapseNL 0 (collapseRunsBy isTS false (replaceNbsp t.data))) = true :=
    relFree_pw_collapseNL h2
  have h4 : relFree punctWsPair (cleanTextL t.data) = true := by
    rcases trimJs_segment (collapseNL 0 (collapseRunsBy isTS false (replaceNbsp t.data)))
      with ⟨pre, suf, hseg⟩
    rw [hseg] at h3
    exact relFree_append_left (relFree_append_right h3)
  have h5 : relFree punctWsPair (collapseRunsBy isJsWs false (cleanTextL t.data)) = true :=
    relFree_pw_collapseRunsBy (fun _ hc => hc) h4
  have hX : sentSplitAux 0 [] (collapseRunsBy isJsWs false (cleanTextL t.data)) =
      [collapseRunsBy isJsWs false (cleanTextL t.data)] := by
    rw [sentSplitAux_no_split h5 (by omega) fun h1 => absurd h1 (by omega)]
    rfl
  rw [sentenceSplit, hX,
    show List.map List.asString [collapseRunsBy isJsWs false (cleanTextL t.data)] =
      [collapsedText t] from rfl]
  by_cases hlen : 2 < (collapsedText t).length
  · rw [if_pos hlen]
    simp [List.filter, hlen]
  · rw [if_neg hlen]
    simp [List.filter, hlen]

theorem sentenceSplit_unsplit_witness :
    sentenceSplit "Hello world" = ["Hello world"] := by
  rw [sentenceSplit_unsplit "Hello world"
    (show relFree punctWsPair ("Hello world" : String).data = true by decide)]
  decide

end NotionNotes
